import Mathlib

/-!
Shallow embedding of `libsolidity/codegen/ir/IRGenerationContext.cpp`:
the IR generation coordinator of the solidity compiler backend.

The mutable `IRGenerationContext` object is embedded as a Lean structure,
and each member function as a state-passing Lean function; `solAssert`
failures are embedded as `Option.none` results.  External collaborators
that are declared outside the single source file (the container member
declarations in the header, `MultiUseYulFunctionCollector`, `Whiskers`,
`suffixedVariableNameList`, `TypeProvider`) are modelled from the spec,
each marked as such in its doc comment.
-/

namespace IRGen

/-! ### Embedding of `std::to_string` on non-negative integers -/

/-- The decimal digit character for `d < 10`. -/
def digitChar (d : Nat) : Char := Char.ofNat (48 + d)

/-- Fuel-indexed decimal digit list of `n`, most significant first.
Mirrors the digit loop of `std::to_string`. -/
def natToChars : Nat → Nat → List Char
  | 0, _ => []
  | fuel + 1, n =>
    if n < 10 then [digitChar n]
    else natToChars fuel (n / 10) ++ [digitChar (n % 10)]

/-- Embedding of `std::to_string` for unsigned values: decimal digits. -/
def natToString (n : Nat) : String := ⟨natToChars (n + 1) n⟩

/-! ### Data model -/

/-- `Arity` (declared in the header): the stack footprint of a call,
`(in, out)` slot counts.  The source field `in` is a Lean keyword, hence
the quoted name. -/
structure Arity where
  «in» : Nat
  out : Nat
deriving DecidableEq

/-- External AST entity: a function definition, with its stable numeric
identifier, display name, constructor flag and call-signature arity.
The arity field is modelled from the spec ("a call signature convertible
to an Arity"): the source computes it via `TypeProvider`, which is
outside this repository slice. -/
structure FunctionDefinition where
  id : Nat
  name : String
  isConstructor : Bool
  arity : Arity
deriving DecidableEq

/-- External AST entity: a variable declaration with its stable numeric
identifier and display name. -/
structure VariableDeclaration where
  id : Nat
  name : String
deriving DecidableEq

/-- `IRVariable{_varDecl}`: the generation-time representation of a local
variable, constructed from its declaration (class defined outside this
slice; modelled as a wrapper of the declaration). -/
structure IRVariable where
  decl : VariableDeclaration
deriving DecidableEq

/-! ### Association lists: the embedding of `std::map` -/

/-- Lookup in an association list (first match), embedding `std::map`
lookup; `std::map` keys are unique so first-match is exact. -/
def lookupA {α β : Type} [DecidableEq α] (k : α) : List (α × β) → Option β
  | [] => none
  | (k', v) :: t => if k' = k then some v else lookupA k t

/-- Insert-or-assign in an association list, embedding `std::map`
subscript assignment. -/
def insertA {α β : Type} [DecidableEq α] (k : α) (v : β) : List (α × β) → List (α × β)
  | [] => [(k, v)]
  | (k', v') :: t => if k' = k then (k, v) :: t else (k', v') :: insertA k v t

/-- Erase a key from an association list, embedding `std::map::erase`. -/
def eraseA {α β : Type} [DecidableEq α] (k : α) : List (α × β) → List (α × β)
  | [] => []
  | (k', v') :: t => if k' = k then eraseA k t else (k', v') :: eraseA k t

/-! ### Ordered sets of function definitions

`std::set<FunctionDefinition const*>` is embedded as a duplicate-free
list kept sorted by numeric identifier.  The comparator is declared in
the header, outside this slice; the spec prescribes a deterministic
order, "recommended: ascending by numeric identifier", which is what we
model.  Entity identity (pointer identity in the source) is identifier
identity, identifiers being unique in a compilation unit. -/

/-- `std::set` insert: keeps the set sorted by `id`; an element whose
`id` is already present is not inserted (the existing element stays). -/
def queueInsert (f : FunctionDefinition) : List FunctionDefinition → List FunctionDefinition
  | [] => [f]
  | g :: gs =>
    if f.id < g.id then f :: g :: gs
    else if f.id = g.id then g :: gs
    else g :: queueInsert f gs

/-! ### The context state -/

/-- The state of `IRGenerationContext`.  `functions` embeds the
`MultiUseYulFunctionCollector` member (modelled from the spec: a registry
of finished fragments, name to rendered code). -/
structure IRGenerationContext where
  functions : List (String × String)
  functionGenerationQueue : List FunctionDefinition
  localVariables : List (VariableDeclaration × IRVariable)
  stateVariables : List (VariableDeclaration × (Nat × Nat))
  internalDispatchMap : List (Arity × List FunctionDefinition)
  internalDispatchTargetCandidates : List (Arity × List FunctionDefinition)
  varCounter : Nat
deriving DecidableEq

/-- Modelled from the spec: `MultiUseYulFunctionCollector::contains`,
the "already generated" predicate of the registry. -/
def registryContains (c : IRGenerationContext) (name : String) : Bool :=
  (lookupA name c.functions).isSome

/-- Modelled from the spec: `MultiUseYulFunctionCollector::createFunction`
is memoized by name — when the name is already registered the stored
fragment is kept and nothing is re-rendered; otherwise the rendered body
is stored under the name.  Returns the name either way. -/
def createFunction (c : IRGenerationContext) (name body : String) :
    String × IRGenerationContext :=
  if registryContains c name then (name, c)
  else (name, { c with functions := insertA name body c.functions })

/-! ### Naming service -/

/-- `IRGenerationContext::functionName(FunctionDefinition)`:
`"fun_" + name + "_" + id`. -/
def functionName (f : FunctionDefinition) : String :=
  "fun_" ++ f.name ++ "_" ++ natToString f.id

/-- `IRGenerationContext::functionName(VariableDeclaration)` (getter):
`"getter_fun_" + name + "_" + id`. -/
def functionNameVar (v : VariableDeclaration) : String :=
  "getter_fun_" ++ v.name ++ "_" ++ natToString v.id

/-- `IRGenerationContext::internalDispatchFunctionName`. -/
def internalDispatchFunctionName (a : Arity) : String :=
  "dispatch_internal" ++ "_in_" ++ natToString a.«in» ++ "_out_" ++ natToString a.out

/-- `IRGenerationContext::functionArity(FunctionDefinition)`.  The source
derives the arity through `TypeProvider` (outside this slice); modelled
from the spec as the function's call-signature arity. -/
def functionArity (f : FunctionDefinition) : Arity := f.arity

/-! ### Worklist -/

/-- `IRGenerationContext::enqueueFunctionForCodeGeneration`: compute the
name; insert into the pending set only when the registry holds no
finished fragment under that name; return the name regardless. -/
def enqueueFunctionForCodeGeneration (c : IRGenerationContext) (f : FunctionDefinition) :
    String × IRGenerationContext :=
  let name := functionName f
  if registryContains c name then (name, c)
  else (name, { c with functionGenerationQueue := queueInsert f c.functionGenerationQueue })

/-- `IRGenerationContext::dequeueFunctionForCodeGeneration`:
`solAssert` (fails) on an empty queue; otherwise removes and returns
`*begin()`, the least element in the set's order. -/
def dequeueFunctionForCodeGeneration (c : IRGenerationContext) :
    Option (FunctionDefinition × IRGenerationContext) :=
  match c.functionGenerationQueue with
  | [] => none
  | f :: rest => some (f, { c with functionGenerationQueue := rest })

/-! ### Variable bindings -/

/-- `IRGenerationContext::addLocalVariable`: `emplace` of a fresh
`IRVariable`; `solAssert(didInsert)` fails when the declaration is
already bound. -/
def addLocalVariable (c : IRGenerationContext) (v : VariableDeclaration) :
    Option (IRVariable × IRGenerationContext) :=
  if (lookupA v c.localVariables).isSome then none
  else some (⟨v⟩, { c with localVariables := insertA v ⟨v⟩ c.localVariables })

/-- `IRGenerationContext::localVariable`: `solAssert` (fails) when the
declaration is unbound, otherwise the stored binding. -/
def localVariable (c : IRGenerationContext) (v : VariableDeclaration) : Option IRVariable :=
  lookupA v c.localVariables

/-- `IRGenerationContext::addStateVariable`: insert-or-overwrite the
(storage slot, byte offset) location; no failure condition. -/
def addStateVariable (c : IRGenerationContext) (v : VariableDeclaration)
    (storageOffset byteOffset : Nat) : IRGenerationContext :=
  { c with stateVariables := insertA v (storageOffset, byteOffset) c.stateVariables }

/-! ### Internal dispatch registry -/

/-- `IRGenerationContext::consumeInternalDispatchMap`: move the confirmed
map out, clear both maps, then `solAssert` that every returned arity has
a non-empty function set. -/
def consumeInternalDispatchMap (c : IRGenerationContext) :
    Option (List (Arity × List FunctionDefinition) × IRGenerationContext) :=
  let result := c.internalDispatchMap
  let c' := { c with internalDispatchMap := [], internalDispatchTargetCandidates := [] }
  if result.all (fun p => !p.2.isEmpty) then some (result, c') else none

/-- `IRGenerationContext::registerInternalDispatchTargetCandidate`:
`solAssert` that the arity is not in both maps; when no dispatch exists
for the arity yet, store the candidate without generating code; when the
dispatch is confirmed, add to the confirmed set and enqueue at once. -/
def registerInternalDispatchTargetCandidate (c : IRGenerationContext)
    (f : FunctionDefinition) : Option (String × IRGenerationContext) :=
  let a := functionArity f
  if (lookupA a c.internalDispatchMap).isSome &&
      (lookupA a c.internalDispatchTargetCandidates).isSome then none
  else if (lookupA a c.internalDispatchMap).isNone then
    let fs := (lookupA a c.internalDispatchTargetCandidates).getD []
    some (internalDispatchFunctionName a,
      { c with internalDispatchTargetCandidates :=
          insertA a (queueInsert f fs) c.internalDispatchTargetCandidates })
  else
    let fs := (lookupA a c.internalDispatchMap).getD []
    let c₁ := { c with internalDispatchMap := insertA a (queueInsert f fs) c.internalDispatchMap }
    some (internalDispatchFunctionName a, (enqueueFunctionForCodeGeneration c₁ f).2)

/-- The `for` loop of `registerInternalDispatch`: enqueue each function
of the confirmed set in order. -/
def enqueueAll (c : IRGenerationContext) (fs : List FunctionDefinition) :
    IRGenerationContext :=
  fs.foldl (fun acc f => (enqueueFunctionForCodeGeneration acc f).2) c

/-- `IRGenerationContext::registerInternalDispatch`: `solAssert` that the
arity is not in both maps; when not yet confirmed, move any candidate set
into the confirmed map (the subscript `m_internalDispatchMap[_arity]` in
the loop header default-constructs an empty set when the arity is absent
from both maps) and enqueue every member; return the dispatcher name in
every branch. -/
def registerInternalDispatch (c : IRGenerationContext) (a : Arity) :
    Option (String × IRGenerationContext) :=
  if (lookupA a c.internalDispatchMap).isSome &&
      (lookupA a c.internalDispatchTargetCandidates).isSome then none
  else if (lookupA a c.internalDispatchMap).isNone then
    let c₁ :=
      match lookupA a c.internalDispatchTargetCandidates with
      | some fs =>
        { c with internalDispatchMap := insertA a fs c.internalDispatchMap,
                 internalDispatchTargetCandidates := eraseA a c.internalDispatchTargetCandidates }
      | none => c
    let c₂ :=
      if (lookupA a c₁.internalDispatchMap).isNone then
        { c₁ with internalDispatchMap := insertA a [] c₁.internalDispatchMap }
      else c₁
    some (internalDispatchFunctionName a,
      enqueueAll c₂ ((lookupA a c₂.internalDispatchMap).getD []))
  else
    some (internalDispatchFunctionName a, c)

/-! ### Dispatcher body synthesis (`internalDispatch`) -/

/-- Modelled from the spec: `suffixedVariableNameList` from `libsolutil`
(outside this slice) — the comma-separated variable names
`pre + i` for `start ≤ i < stop`. -/
def suffixedVariableNameList (pre : String) (start stop : Nat) : String :=
  String.intercalate ", " ((List.range' start (stop - start)).map (fun i => pre ++ natToString i))

/-- The per-function validation loop of `internalDispatch`: each function
must match the arity of the first, must not be a constructor and must not
have the reserved identifier `0`; on success the list of case entries
`(funID, name)` is produced, one per function. -/
def dispatchCases (a : Arity) : List FunctionDefinition → Option (List (String × String))
  | [] => some []
  | f :: rest =>
    if functionArity f ≠ a then none
    else if f.isConstructor then none
    else if f.id = 0 then none
    else (dispatchCases a rest).map (fun cs => (natToString f.id, functionName f) :: cs)

/-- One rendered `case` branch of the dispatcher template: keyed on the
function's numeric identifier, invoking the function with the arity's
input variables and assigning its output variables.  (`Whiskers`
expansion, outside this slice, modelled as direct substitution; literal
braces written as escapes.) -/
def renderCaseBranch (a : Arity) (cs : String × String) : String :=
  "case " ++ cs.1 ++ " \x7b " ++
    suffixedVariableNameList "out_" 0 a.out ++
    (if a.out > 0 then " := " else " ") ++
    cs.2 ++ "(" ++ suffixedVariableNameList "in_" 0 a.«in» ++ ") \x7d "

/-- The rendered dispatcher: a `switch` on the runtime function
identifier with one case branch per entry of `cases` and exactly one
`default` branch executing `invalid()`. -/
def renderDispatcher (funName : String) (a : Arity) (cases : List (String × String)) : String :=
  "function " ++ funName ++ "(fun" ++ (if a.«in» > 0 then "," else "") ++ " " ++
    suffixedVariableNameList "in_" 0 a.«in» ++ ") " ++
    (if a.out > 0 then "->" else "") ++ " " ++
    suffixedVariableNameList "out_" 0 a.out ++ " \x7b switch fun " ++
    String.join (cases.map (renderCaseBranch a)) ++
    "default \x7b invalid() \x7d \x7d"

/-- `IRGenerationContext::internalDispatch`: `solAssert` the set is
non-empty, take the arity of the first function, validate every function
and build its case entry, then create the dispatcher function in the
registry (memoized by its name). -/
def internalDispatch (c : IRGenerationContext) (fs : List FunctionDefinition) :
    Option (String × IRGenerationContext) :=
  match fs with
  | [] => none
  | f₀ :: _ =>
    let a := functionArity f₀
    match dispatchCases a fs with
    | none => none
    | some cases =>
      let funName := internalDispatchFunctionName a
      some (createFunction c funName (renderDispatcher funName a cases))

/-! ## Lemmas about the decimal embedding -/

/-- The digit list does not depend on the fuel once the fuel exceeds the
value. -/
theorem natToChars_fuelIrrel : ∀ (f₁ f₂ n : Nat), n < f₁ → n < f₂ →
    natToChars f₁ n = natToChars f₂ n := by
  intro f₁
  induction f₁ with
  | zero => intro f₂ n h; omega
  | succ k ih =>
    intro f₂ n h1 h2
    match f₂, h2 with
    | m + 1, _ =>
      simp only [natToChars]
      by_cases hn : n < 10
      · simp [hn]
      · have hd : n / 10 < n := Nat.div_lt_self (by omega) (by omega)
        rw [if_neg hn, if_neg hn, ih m (n / 10) (by omega) (by omega)]

/-- For `d < 10`, the code point of `digitChar d` is `48 + d`. -/
theorem digitChar_toNat {d : Nat} (h : d < 10) : (digitChar d).toNat = 48 + d := by
  interval_cases d <;> rfl

/-- Every emitted character is a decimal digit (code points 48–57). -/
theorem natToChars_digits : ∀ (f n : Nat), ∀ c ∈ natToChars f n,
    48 ≤ c.toNat ∧ c.toNat ≤ 57 := by
  intro f
  induction f with
  | zero => intro n c hc; simp [natToChars] at hc
  | succ k ih =>
    intro n c hc
    simp only [natToChars] at hc
    by_cases hn : n < 10
    · rw [if_pos hn] at hc
      simp only [List.mem_singleton] at hc
      subst hc
      rw [digitChar_toNat hn]; omega
    · rw [if_neg hn] at hc
      rcases List.mem_append.mp hc with h | h
      · exact ih _ c h
      · simp only [List.mem_singleton] at h
        subst h
        rw [digitChar_toNat (Nat.mod_lt _ (by omega))]
        have := Nat.mod_lt n (show 0 < 10 by omega)
        omega

/-- The underscore separator never occurs among the digits. -/
theorem underscore_not_mem_natToChars (f n : Nat) : '_' ∉ natToChars f n := by
  intro h
  have h2 := natToChars_digits f n '_' h
  have h3 : ('_' : Char).toNat = 95 := rfl
  rw [h3] at h2
  omega

/-- The digit list of a value is never empty. -/
theorem natToChars_ne_nil (n : Nat) : natToChars (n + 1) n ≠ [] := by
  simp only [natToChars]
  by_cases hn : n < 10
  · simp [hn]
  · rw [if_neg hn]; simp

/-- The decoding fold inverting `natToChars`. -/
def charsToNat (l : List Char) : Nat :=
  l.foldl (fun acc c => 10 * acc + (c.toNat - 48)) 0

/-- Decoding round-trips the encoding: `natToChars` is a faithful
decimal representation. -/
theorem charsToNat_natToChars : ∀ n, charsToNat (natToChars (n + 1) n) = n := by
  intro n
  induction n using Nat.strong_induction_on with
  | _ n ih =>
    by_cases hn : n < 10
    · simp only [natToChars, if_pos hn, charsToNat, List.foldl_cons, List.foldl_nil]
      rw [digitChar_toNat hn]; omega
    · have hd : n / 10 < n := Nat.div_lt_self (by omega) (by omega)
      have hstep : natToChars (n + 1) n
          = natToChars (n / 10 + 1) (n / 10) ++ [digitChar (n % 10)] := by
        conv_lhs => rw [natToChars]
        rw [if_neg hn,
          natToChars_fuelIrrel n (n / 10 + 1) (n / 10) (by omega) (by omega)]
      rw [hstep]
      have hfold : charsToNat (natToChars (n / 10 + 1) (n / 10) ++ [digitChar (n % 10)])
          = 10 * charsToNat (natToChars (n / 10 + 1) (n / 10))
            + ((digitChar (n % 10)).toNat - 48) := by
        simp only [charsToNat, List.foldl_append, List.foldl_cons, List.foldl_nil]
      rw [hfold, ih (n / 10) hd, digitChar_toNat (Nat.mod_lt _ (by omega))]
      have := Nat.div_add_mod n 10
      omega

/-- Distinct values have distinct digit lists. -/
theorem natToChars_inj {m n : Nat}
    (h : natToChars (m + 1) m = natToChars (n + 1) n) : m = n := by
  have := congrArg charsToNat h
  rwa [charsToNat_natToChars, charsToNat_natToChars] at this

/-! ## Separator decomposition of names -/

/-- Two separator-free prefixes followed by the separator match up. -/
theorem sep_prefix_eq (sep : Char) :
    ∀ (p q a b : List Char), sep ∉ p → sep ∉ q →
      p ++ sep :: a = q ++ sep :: b → p = q ∧ a = b := by
  intro p
  induction p with
  | nil =>
    intro q a b _ hq h
    cases q with
    | nil => simpa using h
    | cons c t =>
      simp only [List.nil_append, List.cons_append, List.cons.injEq] at h
      exact absurd (h.1 ▸ List.mem_cons_self c t) hq
  | cons c t ih =>
    intro q a b hp hq h
    cases q with
    | nil =>
      simp only [List.cons_append, List.nil_append, List.cons.injEq] at h
      exact absurd (h.1.symm ▸ List.mem_cons_self sep _) hp
    | cons c' t' =>
      simp only [List.cons_append, List.cons.injEq] at h
      obtain ⟨rfl, h2⟩ := h
      have hr := ih t' a b (fun hm => hp (List.mem_cons_of_mem _ hm))
        (fun hm => hq (List.mem_cons_of_mem _ hm)) h2
      exact ⟨by rw [hr.1], hr.2⟩

/-- The segments after the last separator agree, when both are
separator-free. -/
theorem sep_suffix_eq (sep : Char) (x y u v : List Char)
    (hu : sep ∉ u) (hv : sep ∉ v) (h : x ++ sep :: u = y ++ sep :: v) : u = v := by
  have hr := congrArg List.reverse h
  simp only [List.reverse_append, List.reverse_cons, List.append_assoc,
    List.singleton_append] at hr
  have := sep_prefix_eq sep u.reverse v.reverse x.reverse y.reverse
    (by simpa using hu) (by simpa using hv) hr
  have hrev := this.1
  have := congrArg List.reverse hrev
  simpa using this

/-- Names of the shape `pre + display + "_" + decimal(id)` are injective
in the identifier: the decimal block after the last underscore is
underscore-free, so it is recovered unambiguously. -/
theorem name_concat_inj (pre n₁ n₂ : String) (i₁ i₂ : Nat) (hid : i₁ ≠ i₂) :
    pre ++ n₁ ++ "_" ++ natToString i₁ ≠ pre ++ n₂ ++ "_" ++ natToString i₂ := by
  intro h
  apply hid
  apply natToChars_inj
  have hd := congrArg String.data h
  simp only [String.data_append, List.append_assoc] at hd
  have hd2 := List.append_cancel_left hd
  simp only [List.singleton_append] at hd2
  exact sep_suffix_eq '_' n₁.data n₂.data _ _
    (underscore_not_mem_natToChars _ _) (underscore_not_mem_natToChars _ _) hd2

/-! ## Lemmas about the ordered function set -/

/-- `queueInsert` never removes elements. -/
theorem mem_queueInsert_of_mem (x f : FunctionDefinition) :
    ∀ l, x ∈ l → x ∈ queueInsert f l := by
  intro l
  induction l with
  | nil => intro h; simp at h
  | cons g gs ih =>
    intro hx
    simp only [queueInsert]
    by_cases h1 : f.id < g.id
    · simp [h1, hx]
    · by_cases h2 : f.id = g.id
      · simp [h1, h2, hx]
      · rw [if_neg h1, if_neg h2]
        rcases List.mem_cons.mp hx with rfl | hx
        · exact List.mem_cons_self _ _
        · exact List.mem_cons_of_mem _ (ih hx)

/-- Members of the result of `queueInsert` come from the inserted element
or the original set. -/
theorem mem_queueInsert (y f : FunctionDefinition) :
    ∀ l, y ∈ queueInsert f l → y = f ∨ y ∈ l := by
  intro l
  induction l with
  | nil => intro h; simpa [queueInsert] using h
  | cons g gs ih =>
    intro hy
    simp only [queueInsert] at hy
    by_cases h1 : f.id < g.id
    · rw [if_pos h1] at hy
      rcases List.mem_cons.mp hy with rfl | hy
      · exact Or.inl rfl
      · exact Or.inr hy
    · by_cases h2 : f.id = g.id
      · rw [if_neg h1, if_pos h2] at hy
        exact Or.inr hy
      · rw [if_neg h1, if_neg h2] at hy
        rcases List.mem_cons.mp hy with rfl | hy
        · exact Or.inr (List.mem_cons_self _ _)
        · rcases ih hy with h | h
          · exact Or.inl h
          · exact Or.inr (List.mem_cons_of_mem _ h)

/-- Inserting `f` puts `f` in the set, provided no distinct element of
the set shares its identifier (identifiers are unique in a compilation
unit). -/
theorem mem_queueInsert_self (f : FunctionDefinition) :
    ∀ l, (∀ g ∈ l, g.id = f.id → g = f) → f ∈ queueInsert f l := by
  intro l
  induction l with
  | nil => intro _; simp [queueInsert]
  | cons g gs ih =>
    intro hu
    simp only [queueInsert]
    by_cases h1 : f.id < g.id
    · simp [h1]
    · by_cases h2 : f.id = g.id
      · rw [if_neg h1, if_pos h2]
        have : g = f := hu g (List.mem_cons_self _ _) h2.symm
        rw [← this]
        exact List.mem_cons_self _ _
      · rw [if_neg h1, if_neg h2]
        exact List.mem_cons_of_mem _
          (ih fun g' hg' => hu g' (List.mem_cons_of_mem _ hg'))

/-- `queueInsert` is idempotent. -/
theorem queueInsert_idem (f : FunctionDefinition) :
    ∀ l, queueInsert f (queueInsert f l) = queueInsert f l := by
  intro l
  induction l with
  | nil => simp [queueInsert]
  | cons g gs ih =>
    simp only [queueInsert]
    by_cases h1 : f.id < g.id
    · simp [queueInsert, h1]
    · by_cases h2 : f.id = g.id
      · simp [queueInsert, h1, h2]
      · rw [if_neg h1, if_neg h2]
        simp only [queueInsert, if_neg h1, if_neg h2]
        rw [ih]

/-- The head of a `queueInsert`-sorted set is its minimum. -/
theorem sorted_head_min (f : FunctionDefinition) (rest : List FunctionDefinition)
    (hsort : List.Pairwise (fun x y => x.id < y.id) (f :: rest)) :
    ∀ g ∈ f :: rest, f.id ≤ g.id := by
  intro g hg
  rcases List.mem_cons.mp hg with rfl | hg
  · exact Nat.le_refl _
  · exact Nat.le_of_lt ((List.pairwise_cons.mp hsort).1 g hg)

/-! ## Lemmas about association lists -/

/-- Lookup after insert-or-assign of the same key. -/
theorem lookupA_insertA_self {α β : Type} [DecidableEq α] (k : α) (v : β) :
    ∀ l, lookupA k (insertA k v l) = some v := by
  intro l
  induction l with
  | nil => simp [insertA, lookupA]
  | cons p t ih =>
    simp only [insertA]
    by_cases h : p.1 = k
    · simp [h, lookupA]
    · simp [lookupA, h, ih]

/-- Lookup after insert-or-assign of a different key. -/
theorem lookupA_insertA_ne {α β : Type} [DecidableEq α] {k k' : α} (h : k' ≠ k) (v : β) :
    ∀ l : List (α × β), lookupA k (insertA k' v l) = lookupA k l := by
  intro l
  induction l with
  | nil => simp [insertA, lookupA, h]
  | cons p t ih =>
    simp only [insertA]
    by_cases hp : p.1 = k'
    · simp [lookupA, hp, h]
    · simp only [if_neg hp, lookupA, ih]

/-- Lookup after erasing the same key. -/
theorem lookupA_eraseA_self {α β : Type} [DecidableEq α] (k : α) :
    ∀ l : List (α × β), lookupA k (eraseA k l) = none := by
  intro l
  induction l with
  | nil => simp [eraseA, lookupA]
  | cons p t ih =>
    simp only [eraseA]
    by_cases h : p.1 = k
    · simp [h, ih]
    · simp [lookupA, h, ih]

/-! ## Lemmas about the worklist operations -/

/-- The name `enqueueFunctionForCodeGeneration` returns. -/
theorem enqueue_fst (c : IRGenerationContext) (f : FunctionDefinition) :
    (enqueueFunctionForCodeGeneration c f).1 = functionName f := by
  simp only [enqueueFunctionForCodeGeneration]
  split <;> rfl

/-- When the registry already holds a fragment under the function's name,
enqueueing changes nothing. -/
theorem enqueue_of_registered (c : IRGenerationContext) (f : FunctionDefinition)
    (h : registryContains c (functionName f) = true) :
    (enqueueFunctionForCodeGeneration c f).2 = c := by
  simp only [enqueueFunctionForCodeGeneration, h]
  rfl

/-- When the registry holds no fragment under the function's name,
enqueueing inserts into the pending set. -/
theorem enqueue_of_unregistered (c : IRGenerationContext) (f : FunctionDefinition)
    (h : registryContains c (functionName f) = false) :
    (enqueueFunctionForCodeGeneration c f).2 =
      { c with functionGenerationQueue := queueInsert f c.functionGenerationQueue } := by
  simp only [enqueueFunctionForCodeGeneration, h]
  rfl

/-- Enqueueing touches only the pending queue. -/
theorem enqueue_functions (c : IRGenerationContext) (f : FunctionDefinition) :
    ((enqueueFunctionForCodeGeneration c f).2).functions = c.functions := by
  simp only [enqueueFunctionForCodeGeneration]
  split <;> rfl

/-- Members of the queue after an enqueue come from the enqueued function
or the old queue. -/
theorem enqueue_queue_mem (c : IRGenerationContext) (f y : FunctionDefinition)
    (h : y ∈ ((enqueueFunctionForCodeGeneration c f).2).functionGenerationQueue) :
    y = f ∨ y ∈ c.functionGenerationQueue := by
  by_cases hr : registryContains c (functionName f) = true
  · rw [enqueue_of_registered c f hr] at h
    exact Or.inr h
  · rw [enqueue_of_unregistered c f (by simpa using hr)] at h
    exact mem_queueInsert y f _ h

/-- Enqueueing preserves queue membership. -/
theorem enqueue_queue_mono (c : IRGenerationContext) (f y : FunctionDefinition)
    (h : y ∈ c.functionGenerationQueue) :
    y ∈ ((enqueueFunctionForCodeGeneration c f).2).functionGenerationQueue := by
  by_cases hr : registryContains c (functionName f) = true
  · rw [enqueue_of_registered c f hr]; exact h
  · rw [enqueue_of_unregistered c f (by simpa using hr)]
    exact mem_queueInsert_of_mem y f _ h

/-- `enqueueAll` leaves the registry untouched. -/
theorem enqueueAll_functions : ∀ (fs : List FunctionDefinition) (c : IRGenerationContext),
    (enqueueAll c fs).functions = c.functions := by
  intro fs
  induction fs with
  | nil => intro c; rfl
  | cons x rest ih =>
    intro c
    show (enqueueAll (enqueueFunctionForCodeGeneration c x).2 rest).functions = c.functions
    rw [ih, enqueue_functions]

/-- `enqueueAll` leaves the confirmed dispatch map untouched. -/
theorem enqueueAll_map : ∀ (fs : List FunctionDefinition) (c : IRGenerationContext),
    (enqueueAll c fs).internalDispatchMap = c.internalDispatchMap := by
  intro fs
  induction fs with
  | nil => intro c; rfl
  | cons x rest ih =>
    intro c
    show (enqueueAll (enqueueFunctionForCodeGeneration c x).2 rest).internalDispatchMap
      = c.internalDispatchMap
    rw [ih]
    simp only [enqueueFunctionForCodeGeneration]
    split <;> rfl

/-- `enqueueAll` leaves the candidate map untouched. -/
theorem enqueueAll_cands : ∀ (fs : List FunctionDefinition) (c : IRGenerationContext),
    (enqueueAll c fs).internalDispatchTargetCandidates
      = c.internalDispatchTargetCandidates := by
  intro fs
  induction fs with
  | nil => intro c; rfl
  | cons x rest ih =>
    intro c
    show (enqueueAll (enqueueFunctionForCodeGeneration c x).2 rest).internalDispatchTargetCandidates
      = c.internalDispatchTargetCandidates
    rw [ih]
    simp only [enqueueFunctionForCodeGeneration]
    split <;> rfl

/-- `enqueueAll` preserves queue membership. -/
theorem mem_enqueueAll_mono : ∀ (fs : List FunctionDefinition) (c : IRGenerationContext)
    (x : FunctionDefinition), x ∈ c.functionGenerationQueue →
    x ∈ (enqueueAll c fs).functionGenerationQueue := by
  intro fs
  induction fs with
  | nil => intro c x h; exact h
  | cons y rest ih =>
    intro c x h
    exact ih _ x (enqueue_queue_mono c y x h)

/-- Every member of `fs` whose fragment is not yet in the registry ends
up in the pending queue after `enqueueAll c fs`, under identifier
uniqueness of the involved functions. -/
theorem mem_enqueueAll : ∀ (fs : List FunctionDefinition) (c : IRGenerationContext)
    (f : FunctionDefinition), f ∈ fs →
    registryContains c (functionName f) = false →
    (∀ g ∈ c.functionGenerationQueue, g.id = f.id → g = f) →
    (∀ g ∈ fs, g.id = f.id → g = f) →
    f ∈ (enqueueAll c fs).functionGenerationQueue := by
  intro fs
  induction fs with
  | nil => intro c f h; simp at h
  | cons x rest ih =>
    intro c f hf hreg hq hfs
    by_cases hfx : f = x
    · subst hfx
      apply mem_enqueueAll_mono rest
      show f ∈ ((enqueueFunctionForCodeGeneration c f).2).functionGenerationQueue
      rw [enqueue_of_unregistered c f hreg]
      exact mem_queueInsert_self f _ hq
    · have hf' : f ∈ rest := by
        rcases List.mem_cons.mp hf with h | h
        · exact absurd h hfx
        · exact h
      apply ih _ f hf'
      · unfold registryContains
        rw [enqueue_functions]
        exact hreg
      · intro g hg hgid
        rcases enqueue_queue_mem c x g hg with rfl | hg'
        · exact hfs g (List.mem_cons_self _ _) hgid
        · exact hq g hg' hgid
      · intro g hg hgid
        exact hfs g (List.mem_cons_of_mem _ hg) hgid

/-- `countP` of an identifier after inserting the only function with that
identifier is one. -/
theorem countP_queueInsert_self (f : FunctionDefinition) :
    ∀ l, (∀ g ∈ l, g.id ≠ f.id) →
    (queueInsert f l).countP (fun g => g.id == f.id) = 1 := by
  intro l
  induction l with
  | nil => intro _; simp [queueInsert]
  | cons g gs ih =>
    intro hl
    have hgne : g.id ≠ f.id := hl g (List.mem_cons_self _ _)
    simp only [queueInsert]
    by_cases h1 : f.id < g.id
    · rw [if_pos h1]
      rw [List.countP_cons, List.countP_cons]
      have h0 : (g :: gs).countP (fun g => g.id == f.id) = 0 := by
        rw [List.countP_eq_zero]
        intro x hx
        simp only [beq_iff_eq]
        exact hl x hx
      rw [List.countP_cons] at h0
      simp only [beq_iff_eq, hgne, if_false] at h0 ⊢
      simp [h0]
    · rw [if_neg h1, if_neg (fun h => hgne h.symm)]
      rw [List.countP_cons]
      simp only [beq_iff_eq, hgne, if_false]
      exact ih fun x hx => hl x (List.mem_cons_of_mem _ hx)

/-! ## Claim theorems -/

/-- **C2.** `consumeInternalDispatchMap` returns the confirmed
arity-to-function-set map; after it returns, both the candidate map and
the confirmed map are empty; and it fails (`EmptyDispatchGroup` assert)
exactly when some arity of the returned map has an empty function set. -/
theorem consumeInternalDispatchMap_spec (c : IRGenerationContext) :
    (consumeInternalDispatchMap c = none ↔ ∃ p ∈ c.internalDispatchMap, p.2 = []) ∧
    (∀ r c', consumeInternalDispatchMap c = some (r, c') →
      r = c.internalDispatchMap ∧
      c'.internalDispatchMap = [] ∧
      c'.internalDispatchTargetCandidates = [] ∧
      ∀ p ∈ r, p.2 ≠ []) := by
  by_cases h : c.internalDispatchMap.all (fun p => !p.2.isEmpty) = true
  · have hne : ∀ p ∈ c.internalDispatchMap, p.2 ≠ [] := by
      intro p hp
      have := List.all_eq_true.mp h p hp
      simpa using this
    constructor
    · simp only [consumeInternalDispatchMap, if_pos h]
      constructor
      · intro hnone; exact absurd hnone (by simp)
      · intro ⟨p, hp, hpe⟩; exact absurd hpe (hne p hp)
    · intro r c' heq
      simp only [consumeInternalDispatchMap, if_pos h, Option.some.injEq, Prod.mk.injEq] at heq
      obtain ⟨hr, hc'⟩ := heq
      subst hr
      subst hc'
      exact ⟨rfl, rfl, rfl, hne⟩
  · obtain ⟨p, hp, hpe⟩ : ∃ p ∈ c.internalDispatchMap, p.2 = [] := by
      rw [List.all_eq_true] at h
      push_neg at h
      obtain ⟨p, hp, hpe⟩ := h
      refine ⟨p, hp, ?_⟩
      simpa using hpe
    constructor
    · simp only [consumeInternalDispatchMap, if_neg h]
      exact ⟨fun _ => ⟨p, hp, hpe⟩, fun _ => trivial⟩
    · intro r c' heq
      simp only [consumeInternalDispatchMap, if_neg h] at heq
      exact Option.noConfusion heq

/-- **C4.** `dequeueFunctionForCodeGeneration` fails exactly on an empty
pending set; otherwise it removes and returns the pending function with
the least numeric identifier (the set is ordered ascending by
identifier), decreasing the pending count by one. -/
theorem dequeue_spec (c : IRGenerationContext)
    (hsort : List.Pairwise (fun x y => x.id < y.id) c.functionGenerationQueue) :
    (dequeueFunctionForCodeGeneration c = none ↔ c.functionGenerationQueue = []) ∧
    (∀ f rest, c.functionGenerationQueue = f :: rest →
      dequeueFunctionForCodeGeneration c =
        some (f, { c with functionGenerationQueue := rest }) ∧
      (∀ g ∈ c.functionGenerationQueue, f.id ≤ g.id) ∧
      rest.length + 1 = c.functionGenerationQueue.length) := by
  constructor
  · unfold dequeueFunctionForCodeGeneration
    cases hq : c.functionGenerationQueue with
    | nil => simp
    | cons f rest => simp
  · intro f rest hq
    refine ⟨?_, ?_, by rw [hq]; rfl⟩
    · unfold dequeueFunctionForCodeGeneration
      rw [hq]
    · rw [hq] at hsort ⊢
      exact sorted_head_min f rest hsort

/-- **C6.** `enqueueFunctionForCodeGeneration` always returns the
function's computed name; it inserts into the pending set only when the
registry holds no finished fragment under that name; enqueueing the same
not-yet-generated function twice leaves the same state as a single
enqueue, with exactly one pending entry for its identifier. -/
theorem enqueue_spec (c : IRGenerationContext) (f : FunctionDefinition) :
    (enqueueFunctionForCodeGeneration c f).1 = functionName f ∧
    (registryContains c (functionName f) = true →
      (enqueueFunctionForCodeGeneration c f).2 = c) ∧
    (registryContains c (functionName f) = false →
      (enqueueFunctionForCodeGeneration c f).2 =
        { c with functionGenerationQueue := queueInsert f c.functionGenerationQueue }) ∧
    enqueueFunctionForCodeGeneration (enqueueFunctionForCodeGeneration c f).2 f =
      enqueueFunctionForCodeGeneration c f ∧
    (registryContains c (functionName f) = false →
      (∀ g ∈ c.functionGenerationQueue, g.id ≠ f.id) →
      ((enqueueFunctionForCodeGeneration
          (enqueueFunctionForCodeGeneration c f).2 f).2.functionGenerationQueue.countP
        (fun g => g.id == f.id)) = 1) := by
  have hidem : enqueueFunctionForCodeGeneration (enqueueFunctionForCodeGeneration c f).2 f =
      enqueueFunctionForCodeGeneration c f := by
    by_cases hr : registryContains c (functionName f) = true
    · rw [enqueue_of_registered c f hr]
    · have hr' : registryContains c (functionName f) = false := by simpa using hr
      rw [enqueue_of_unregistered c f hr']
      have hr2 : registryContains
          { c with functionGenerationQueue := queueInsert f c.functionGenerationQueue }
          (functionName f) = false := hr'
      simp only [enqueueFunctionForCodeGeneration, hr2, hr']
      simp [queueInsert_idem]
  refine ⟨enqueue_fst c f, enqueue_of_registered c f, enqueue_of_unregistered c f, hidem, ?_⟩
  intro hr hq
  rw [hidem, enqueue_of_unregistered c f hr]
  exact countP_queueInsert_self f _ hq

/-- **C7.** The naming functions are injective per entity kind: function
definitions with distinct numeric identifiers receive distinct symbolic
names, and likewise for getter names of variable declarations, regardless
of the entities' display names. -/
theorem functionName_inj_spec :
    (∀ f g : FunctionDefinition, f.id ≠ g.id → functionName f ≠ functionName g) ∧
    (∀ v w : VariableDeclaration, v.id ≠ w.id → functionNameVar v ≠ functionNameVar w) :=
  ⟨fun f g hid => name_concat_inj "fun_" f.name g.name f.id g.id hid,
   fun v w hid => name_concat_inj "getter_fun_" v.name w.name v.id w.id hid⟩

/-- **C8.** `addLocalVariable` fails exactly when the declaration is
already bound, and otherwise stores and returns a fresh generation-time
representation; `localVariable` fails exactly when the declaration has no
binding, and otherwise returns the stored binding. -/
theorem localVariable_spec (c : IRGenerationContext) (v : VariableDeclaration) :
    (addLocalVariable c v = none ↔ (localVariable c v).isSome = true) ∧
    (localVariable c v = none ↔ ¬(localVariable c v).isSome = true) ∧
    (localVariable c v = none →
      ∃ c', addLocalVariable c v = some (⟨v⟩, c') ∧
        localVariable c' v = some ⟨v⟩ ∧
        addLocalVariable c' v = none) := by
  refine ⟨?_, (Option.not_isSome_iff_eq_none).symm, ?_⟩
  · unfold addLocalVariable localVariable
    by_cases h : (lookupA v c.localVariables).isSome = true
    · simp [h]
    · simp [h]
  · intro hnone
    have h : (lookupA v c.localVariables).isSome = false := by
      unfold localVariable at hnone
      rw [hnone]; rfl
    refine ⟨{ c with localVariables := insertA v ⟨v⟩ c.localVariables }, ?_, ?_, ?_⟩
    · unfold addLocalVariable
      rw [if_neg (by simp [h])]
    · unfold localVariable
      exact lookupA_insertA_self v ⟨v⟩ c.localVariables
    · unfold addLocalVariable
      rw [if_pos (by simp [lookupA_insertA_self])]

/-- `insertA` always produces an entry binding the inserted key to the
inserted value. -/
theorem mem_insertA_self {α β : Type} [DecidableEq α] (k : α) (v : β) :
    ∀ l, (k, v) ∈ insertA k v l := by
  intro l
  induction l with
  | nil => simp [insertA]
  | cons p t ih =>
    simp only [insertA]
    by_cases h : p.1 = k
    · simp [h]
    · rw [if_neg h]
      exact List.mem_cons_of_mem _ ih

/-- **C3.** `registerInternalDispatchTargetCandidate`: when the arity is
confirmed, the function is added to the confirmed set and enqueued at
once, and no candidate entry is created; when the arity is absent or
candidate-only, the function is added only to the candidate set — not
enqueued, not in the confirmed map. -/
theorem registerCandidate_spec (c : IRGenerationContext) (f : FunctionDefinition) :
    (∀ s, lookupA (functionArity f) c.internalDispatchMap = some s →
      lookupA (functionArity f) c.internalDispatchTargetCandidates = none →
      (∀ g ∈ s, g.id = f.id → g = f) →
      (∀ g ∈ c.functionGenerationQueue, g.id = f.id → g = f) →
      registryContains c (functionName f) = false →
      ∃ c', registerInternalDispatchTargetCandidate c f =
          some (internalDispatchFunctionName (functionArity f), c') ∧
        lookupA (functionArity f) c'.internalDispatchMap = some (queueInsert f s) ∧
        f ∈ queueInsert f s ∧
        f ∈ c'.functionGenerationQueue ∧
        c'.internalDispatchTargetCandidates = c.internalDispatchTargetCandidates) ∧
    (lookupA (functionArity f) c.internalDispatchMap = none →
      (∀ g ∈ (lookupA (functionArity f) c.internalDispatchTargetCandidates).getD [],
        g.id = f.id → g = f) →
      ∃ c', registerInternalDispatchTargetCandidate c f =
          some (internalDispatchFunctionName (functionArity f), c') ∧
        lookupA (functionArity f) c'.internalDispatchTargetCandidates =
          some (queueInsert f
            ((lookupA (functionArity f) c.internalDispatchTargetCandidates).getD [])) ∧
        f ∈ queueInsert f
            ((lookupA (functionArity f) c.internalDispatchTargetCandidates).getD []) ∧
        c'.internalDispatchMap = c.internalDispatchMap ∧
        c'.functionGenerationQueue = c.functionGenerationQueue) := by
  constructor
  · intro s hs hc hus huq hreg
    have hc1 : registryContains
        { c with internalDispatchMap :=
            insertA (functionArity f) (queueInsert f s) c.internalDispatchMap }
        (functionName f) = false := hreg
    have hstep : registerInternalDispatchTargetCandidate c f =
        some (internalDispatchFunctionName (functionArity f),
          (enqueueFunctionForCodeGeneration
            { c with internalDispatchMap :=
                insertA (functionArity f) (queueInsert f s) c.internalDispatchMap } f).2) := by
      simp [registerInternalDispatchTargetCandidate, hs, hc]
    rw [enqueue_of_unregistered _ f hc1] at hstep
    refine ⟨_, hstep, ?_, ?_, ?_, rfl⟩
    · exact lookupA_insertA_self _ _ _
    · exact mem_queueInsert_self f s hus
    · exact mem_queueInsert_self f _ huq
  · intro hm hcu
    have hstep : registerInternalDispatchTargetCandidate c f =
        some (internalDispatchFunctionName (functionArity f),
          { c with internalDispatchTargetCandidates := insertA (functionArity f) (queueInsert f ((lookupA (functionArity f) c.internalDispatchTargetCandidates).getD [])) c.internalDispatchTargetCandidates }) := by
      simp [registerInternalDispatchTargetCandidate, hm]
    refine ⟨_, hstep, ?_, ?_, rfl, rfl⟩
    · exact lookupA_insertA_self _ _ _
    · exact mem_queueInsert_self f _ hcu

/-- **C1.** For an arity that is not yet confirmed but has a non-empty
candidate set, `registerInternalDispatch` moves the entire candidate set
into the confirmed map, removes the arity from the candidate map, and
enqueues every moved function; a subsequent call for the same arity
changes no state and returns the same dispatcher name. -/
theorem registerDispatch_promote_spec (c : IRGenerationContext) (a : Arity)
    (fs : List FunctionDefinition)
    (hm : lookupA a c.internalDispatchMap = none)
    (hc : lookupA a c.internalDispatchTargetCandidates = some fs)
    (hne : fs ≠ [])
    (hufs : List.Pairwise (fun x y => x.id ≠ y.id) fs)
    (huq : ∀ f ∈ fs, ∀ g ∈ c.functionGenerationQueue, g.id = f.id → g = f)
    (hreg : ∀ f ∈ fs, registryContains c (functionName f) = false) :
    ∃ c', registerInternalDispatch c a = some (internalDispatchFunctionName a, c') ∧
      lookupA a c'.internalDispatchMap = some fs ∧
      lookupA a c'.internalDispatchTargetCandidates = none ∧
      (∀ f ∈ fs, f ∈ c'.functionGenerationQueue) ∧
      registerInternalDispatch c' a = some (internalDispatchFunctionName a, c') := by
  have hufs' : ∀ f ∈ fs, ∀ g ∈ fs, g.id = f.id → g = f := by
    intro f hf g hg hid
    by_contra hgf
    exact (List.Pairwise.forall (fun x y h => h.symm) hufs hg hf hgf) hid
  refine ⟨enqueueAll
      { c with internalDispatchMap := insertA a fs c.internalDispatchMap,
               internalDispatchTargetCandidates := eraseA a c.internalDispatchTargetCandidates }
      fs, ?_, ?_, ?_, ?_, ?_⟩
  · simp [registerInternalDispatch, hm, hc, lookupA_insertA_self]
  · rw [enqueueAll_map]
    exact lookupA_insertA_self _ _ _
  · rw [enqueueAll_cands]
    exact lookupA_eraseA_self _ _
  · intro f hf
    exact mem_enqueueAll fs _ f hf (hreg f hf) (huq f hf) (hufs' f hf)
  · have h1 : lookupA a (enqueueAll
        { c with internalDispatchMap := insertA a fs c.internalDispatchMap,
                 internalDispatchTargetCandidates := eraseA a c.internalDispatchTargetCandidates }
        fs).internalDispatchMap = some fs := by
      rw [enqueueAll_map]; exact lookupA_insertA_self _ _ _
    have h2 : lookupA a (enqueueAll
        { c with internalDispatchMap := insertA a fs c.internalDispatchMap,
                 internalDispatchTargetCandidates := eraseA a c.internalDispatchTargetCandidates }
        fs).internalDispatchTargetCandidates = none := by
      rw [enqueueAll_cands]; exact lookupA_eraseA_self _ _
    simp [registerInternalDispatch, h1, h2]

/-- **C9.** For an arity that is neither confirmed nor has candidates,
`registerInternalDispatch` does not fail: it confirms the arity with an
empty member set (via the default-constructing map subscript), enqueues
nothing, and returns the dispatcher name; the empty group is detected
only later by `consumeInternalDispatchMap`, which then fails. -/
theorem registerDispatch_emptyGroup_spec (c : IRGenerationContext) (a : Arity)
    (hm : lookupA a c.internalDispatchMap = none)
    (hc : lookupA a c.internalDispatchTargetCandidates = none) :
    ∃ c', registerInternalDispatch c a = some (internalDispatchFunctionName a, c') ∧
      lookupA a c'.internalDispatchMap = some [] ∧
      c'.functionGenerationQueue = c.functionGenerationQueue ∧
      consumeInternalDispatchMap c' = none := by
  refine ⟨{ c with internalDispatchMap := insertA a [] c.internalDispatchMap }, ?_, ?_, rfl, ?_⟩
  · simp [registerInternalDispatch, hm, hc, lookupA_insertA_self, enqueueAll]
  · exact lookupA_insertA_self _ _ _
  · have hmem : ((a, ([] : List FunctionDefinition)) ∈
        insertA a [] c.internalDispatchMap) := mem_insertA_self a [] _
    have hall : ((insertA a [] c.internalDispatchMap).all fun p => !p.2.isEmpty) = false := by
      rw [Bool.eq_false_iff]
      intro hall
      have := List.all_eq_true.mp hall (a, []) hmem
      simp at this
    simp only [consumeInternalDispatchMap, hall]
    rw [if_neg (by simp)]

/-- **C10.** `registerInternalDispatchTargetCandidate` returns the
synthesized dispatcher name `dispatch_internal_in_<in>_out_<out>` for the
function's arity in every non-failing branch, including when the arity
stays candidate-only. -/
theorem registerCandidate_name_spec (c : IRGenerationContext) (f : FunctionDefinition)
    (h : (lookupA (functionArity f) c.internalDispatchMap).isSome = false ∨
         (lookupA (functionArity f) c.internalDispatchTargetCandidates).isSome = false) :
    (∃ c', registerInternalDispatchTargetCandidate c f =
      some (internalDispatchFunctionName (functionArity f), c')) ∧
    internalDispatchFunctionName (functionArity f) =
      "dispatch_internal" ++ "_in_" ++ natToString (functionArity f).«in» ++
        "_out_" ++ natToString (functionArity f).out := by
  refine ⟨?_, rfl⟩
  have hcond : ((lookupA (functionArity f) c.internalDispatchMap).isSome &&
      (lookupA (functionArity f) c.internalDispatchTargetCandidates).isSome) = false := by
    rcases h with h | h <;> simp [h]
  simp only [registerInternalDispatchTargetCandidate, hcond]
  rw [if_neg (by simp)]
  split
  · exact ⟨_, rfl⟩
  · exact ⟨_, rfl⟩

/-- The validation loop succeeds on same-arity, non-constructor,
non-zero-identifier functions, producing one case entry per function. -/
theorem dispatchCases_eq (a : Arity) : ∀ fs : List FunctionDefinition,
    (∀ f ∈ fs, functionArity f = a ∧ f.isConstructor = false ∧ f.id ≠ 0) →
    dispatchCases a fs = some (fs.map (fun f => (natToString f.id, functionName f))) := by
  intro fs
  induction fs with
  | nil => intro _; rfl
  | cons f rest ih =>
    intro h
    obtain ⟨ha, hcst, hid⟩ := h f (List.mem_cons_self _ _)
    have hrest := ih fun g hg => h g (List.mem_cons_of_mem _ hg)
    simp only [dispatchCases, ha, hcst, hid, hrest]
    simp

/-- **C5.** Given a non-empty list of functions of one arity, none a
constructor and none with identifier `0`, `internalDispatch` renders and
registers a dispatcher with exactly one case entry per function (keyed on
its numeric identifier) and one default branch, and returns the
dispatcher name; a second request for the same dispatcher name returns
the previously registered rendering unchanged. -/
theorem internalDispatch_spec (c : IRGenerationContext)
    (f₀ : FunctionDefinition) (rest : List FunctionDefinition)
    (hall : ∀ f ∈ f₀ :: rest,
      functionArity f = functionArity f₀ ∧ f.isConstructor = false ∧ f.id ≠ 0)
    (hreg : registryContains c (internalDispatchFunctionName (functionArity f₀)) = false) :
    ∃ c', internalDispatch c (f₀ :: rest) =
        some (internalDispatchFunctionName (functionArity f₀), c') ∧
      lookupA (internalDispatchFunctionName (functionArity f₀)) c'.functions =
        some (renderDispatcher (internalDispatchFunctionName (functionArity f₀))
          (functionArity f₀)
          ((f₀ :: rest).map (fun f => (natToString f.id, functionName f)))) ∧
      ((f₀ :: rest).map (fun f => (natToString f.id, functionName f))).length =
        (f₀ :: rest).length ∧
      internalDispatch c' (f₀ :: rest) =
        some (internalDispatchFunctionName (functionArity f₀), c') := by
  have hcases := dispatchCases_eq (functionArity f₀) (f₀ :: rest) hall
  have hstep : internalDispatch c (f₀ :: rest) =
      some (internalDispatchFunctionName (functionArity f₀),
        { c with functions := insertA (internalDispatchFunctionName (functionArity f₀)) (renderDispatcher (internalDispatchFunctionName (functionArity f₀)) (functionArity f₀) ((f₀ :: rest).map (fun f => (natToString f.id, functionName f)))) c.functions }) := by
    simp only [internalDispatch, hcases, createFunction, hreg]
    rfl
  refine ⟨_, hstep, ?_, List.length_map _ _, ?_⟩
  · exact lookupA_insertA_self _ _ _
  · have hreg' : registryContains
        { c with functions := insertA (internalDispatchFunctionName (functionArity f₀)) (renderDispatcher (internalDispatchFunctionName (functionArity f₀)) (functionArity f₀) ((f₀ :: rest).map (fun f => (natToString f.id, functionName f)))) c.functions }
        (internalDispatchFunctionName (functionArity f₀)) = true := by
      unfold registryContains
      rw [lookupA_insertA_self]
      rfl
    simp only [internalDispatch, hcases, createFunction, hreg']
    rfl

/-! ## Concrete sample inputs, exercising the claim theorems -/

/-- The spec's example arity: one input slot, one output slot. -/
def sampleArity : Arity := ⟨1, 1⟩

/-- The spec's example function `A`, identifier 5, arity (1, 1). -/
def sampleA : FunctionDefinition := ⟨5, "A", false, sampleArity⟩

/-- The spec's example function `B`, identifier 7, arity (1, 1). -/
def sampleB : FunctionDefinition := ⟨7, "B", false, sampleArity⟩

/-- A sample variable declaration. -/
def sampleVar : VariableDeclaration := ⟨11, "x"⟩

/-- A freshly constructed context. -/
def emptyContext : IRGenerationContext := ⟨[], [], [], [], [], [], 0⟩

/-- A context where arity (1, 1) is candidate-only with members A, B. -/
def candContext : IRGenerationContext := ⟨[], [], [], [], [], [(sampleArity, [sampleA, sampleB])], 0⟩

/-- A context where arity (1, 1) is confirmed with member B. -/
def confContext : IRGenerationContext := ⟨[], [], [], [], [(sampleArity, [sampleB])], [], 0⟩

/-- A context with A and B pending in the worklist. -/
def queueContext : IRGenerationContext := ⟨[], [sampleA, sampleB], [], [], [], [], 0⟩

/-- A context with a confirmed non-empty group and a leftover candidate. -/
def mapContext : IRGenerationContext := ⟨[], [], [], [], [(sampleArity, [sampleA])], [(⟨2, 0⟩, [sampleB])], 0⟩

/-- Witness for C2 at a concrete context. -/
theorem consumeInternalDispatchMap_witness :
    [(sampleArity, [sampleA])] = mapContext.internalDispatchMap ∧
    emptyContext.internalDispatchMap = [] ∧
    emptyContext.internalDispatchTargetCandidates = [] := by
  have h := (consumeInternalDispatchMap_spec mapContext).2
    [(sampleArity, [sampleA])] emptyContext (by decide)
  exact ⟨h.1, h.2.1, h.2.2.1⟩

/-- Witness for C4 at a concrete context. -/
theorem dequeue_witness :
    dequeueFunctionForCodeGeneration queueContext =
      some (sampleA, { queueContext with functionGenerationQueue := [sampleB] }) ∧
    sampleA.id ≤ sampleB.id := by
  have h := (dequeue_spec queueContext (by decide)).2 sampleA [sampleB] rfl
  exact ⟨h.1, h.2.1 sampleB (by decide)⟩

/-- Witness for C6 at a concrete context. -/
theorem enqueue_witness :
    (enqueueFunctionForCodeGeneration emptyContext sampleA).1 = functionName sampleA ∧
    (enqueueFunctionForCodeGeneration emptyContext sampleA).2 =
      { emptyContext with
        functionGenerationQueue := queueInsert sampleA emptyContext.functionGenerationQueue } ∧
    enqueueFunctionForCodeGeneration
        (enqueueFunctionForCodeGeneration emptyContext sampleA).2 sampleA =
      enqueueFunctionForCodeGeneration emptyContext sampleA := by
  have h := enqueue_spec emptyContext sampleA
  exact ⟨h.1, h.2.2.1 (by decide), h.2.2.2.1⟩

/-- Witness for C7 at concrete entities. -/
theorem functionName_inj_witness :
    functionName sampleA ≠ functionName sampleB ∧
    functionNameVar ⟨3, "x"⟩ ≠ functionNameVar ⟨4, "x"⟩ :=
  ⟨functionName_inj_spec.1 sampleA sampleB (by decide),
   functionName_inj_spec.2 ⟨3, "x"⟩ ⟨4, "x"⟩ (by decide)⟩

/-- Witness for C8 at a concrete context. -/
theorem localVariable_witness :
    ∃ c', addLocalVariable emptyContext sampleVar = some (⟨sampleVar⟩, c') ∧
      localVariable c' sampleVar = some ⟨sampleVar⟩ ∧
      addLocalVariable c' sampleVar = none :=
  (localVariable_spec emptyContext sampleVar).2.2 (by decide)

/-- Witness for C3 at a concrete context with a confirmed arity. -/
theorem registerCandidate_witness :
    ∃ c', registerInternalDispatchTargetCandidate confContext sampleA =
        some (internalDispatchFunctionName (functionArity sampleA), c') ∧
      lookupA (functionArity sampleA) c'.internalDispatchMap =
        some (queueInsert sampleA [sampleB]) ∧
      sampleA ∈ queueInsert sampleA [sampleB] ∧
      sampleA ∈ c'.functionGenerationQueue ∧
      c'.internalDispatchTargetCandidates = confContext.internalDispatchTargetCandidates :=
  (registerCandidate_spec confContext sampleA).1 [sampleB]
    (by decide) (by decide) (by decide) (by decide) (by decide)

/-- Witness for C1 at a concrete candidate-only context. -/
theorem registerDispatch_promote_witness :
    ∃ c', registerInternalDispatch candContext sampleArity =
        some (internalDispatchFunctionName sampleArity, c') ∧
      lookupA sampleArity c'.internalDispatchMap = some [sampleA, sampleB] ∧
      lookupA sampleArity c'.internalDispatchTargetCandidates = none ∧
      sampleA ∈ c'.functionGenerationQueue ∧
      sampleB ∈ c'.functionGenerationQueue ∧
      registerInternalDispatch c' sampleArity =
        some (internalDispatchFunctionName sampleArity, c') := by
  obtain ⟨c', h1, h2, h3, h4, h5⟩ := registerDispatch_promote_spec candContext sampleArity
    [sampleA, sampleB] (by decide) (by decide) (by decide) (by decide) (by decide) (by decide)
  exact ⟨c', h1, h2, h3, h4 sampleA (by decide), h4 sampleB (by decide), h5⟩

/-- Witness for C9 at a concrete context without candidates. -/
theorem registerDispatch_emptyGroup_witness :
    ∃ c', registerInternalDispatch emptyContext sampleArity =
        some (internalDispatchFunctionName sampleArity, c') ∧
      lookupA sampleArity c'.internalDispatchMap = some [] ∧
      c'.functionGenerationQueue = emptyContext.functionGenerationQueue ∧
      consumeInternalDispatchMap c' = none :=
  registerDispatch_emptyGroup_spec emptyContext sampleArity (by decide) (by decide)

/-- Witness for C10 at a concrete fresh context. -/
theorem registerCandidate_name_witness :
    (∃ c', registerInternalDispatchTargetCandidate emptyContext sampleA =
      some (internalDispatchFunctionName (functionArity sampleA), c')) ∧
    internalDispatchFunctionName (functionArity sampleA) =
      "dispatch_internal" ++ "_in_" ++ natToString (functionArity sampleA).«in» ++
        "_out_" ++ natToString (functionArity sampleA).out :=
  registerCandidate_name_spec emptyContext sampleA (Or.inl (by decide))

/-- Witness for C5 at the spec's example: functions A (id 5) and B
(id 7), both of arity (1, 1). -/
theorem internalDispatch_witness :
    ∃ c', internalDispatch emptyContext [sampleA, sampleB] =
        some (internalDispatchFunctionName (functionArity sampleA), c') ∧
      lookupA (internalDispatchFunctionName (functionArity sampleA)) c'.functions =
        some (renderDispatcher (internalDispatchFunctionName (functionArity sampleA))
          (functionArity sampleA)
          ([sampleA, sampleB].map (fun f => (natToString f.id, functionName f)))) ∧
      ([sampleA, sampleB].map (fun f => (natToString f.id, functionName f))).length =
        ([sampleA, sampleB] : List FunctionDefinition).length ∧
      internalDispatch c' [sampleA, sampleB] =
        some (internalDispatchFunctionName (functionArity sampleA), c') :=
  internalDispatch_spec emptyContext sampleA [sampleB] (by decide) (by decide)

end IRGen
